import Mathlib

/-!
Shallow embedding of the multisig-wallet engine of
`workshop-musig-wallet-debugging` (TypeScript), centred on
`src/intermediate-musig-solution.ts` (class `MultisigWallet`) and
`src/advanced-musig.ts` (method `validatePath` of `BrokenMultisigWallet`).

Modelling conventions:
* byte buffers (`Buffer`) are `List Nat` (each entry a byte value);
* `bigint` amounts and the `fee` argument are `Int`;
* hex strings that the source immediately decodes (`scriptPubKey`) are
  modelled by the byte list they decode to, so the source's
  `startsWith "0020"` test becomes a two-byte `[0x00, 0x20]` prefix test;
* external library services (`tinysecp.isPoint`, address validation,
  `psbt.signInput`, PSBT finalization) are parameters of the functions
  that call them, mirroring the spec's treatment of them as opaque
  collaborators;
* thrown exceptions become `Except` error results; methods that mutate
  `this` or a `Psbt` object are written in state-passing style and return
  the post-state explicitly.
-/

namespace Musig

/-- A byte buffer: a list of byte values. -/
abbrev Bytes := List Nat

/-! ### Buffer.compare and canonical key sorting

`MultisigWallet.constructor` sorts the public keys with
`[...publicKeys].sort((a, b) => a.compare(b))`; `Buffer.compare` is
byte-lexicographic with a shorter buffer that is a prefix of the other
comparing smaller. -/

/-- Byte-lexicographic three-way comparison, mirroring Node's
`Buffer.compare`. -/
def bufCompare : Bytes → Bytes → Ordering
  | [], [] => .eq
  | [], _ :: _ => .lt
  | _ :: _, [] => .gt
  | a :: as, b :: bs =>
    if a < b then .lt else if b < a then .gt else bufCompare as bs

/-- The non-strict order induced by `bufCompare`, i.e. the comparator
`(a, b) => a.compare(b)` reporting `a` not greater than `b`. -/
def bufLe (a b : Bytes) : Prop := bufCompare a b ≠ Ordering.gt

instance : DecidableRel bufLe := fun a b =>
  inferInstanceAs (Decidable (bufCompare a b ≠ Ordering.gt))

theorem bufCompare_eq_iff : ∀ {a b : Bytes}, bufCompare a b = Ordering.eq ↔ a = b := by
  intro a
  induction a with
  | nil => intro b; cases b <;> simp [bufCompare]
  | cons x xs ih =>
    intro b
    cases b with
    | nil => simp [bufCompare]
    | cons y ys =>
      by_cases hxy : x < y
      · simp [bufCompare, hxy]
        omega
      · by_cases hyx : y < x
        · simp [bufCompare, hxy, hyx]
          omega
        · have hxy' : x = y := by omega
          subst hxy'
          simp [bufCompare, hxy, hyx, ih]

theorem bufCompare_swap : ∀ (a b : Bytes), (bufCompare a b).swap = bufCompare b a := by
  intro a
  induction a with
  | nil => intro b; cases b <;> simp [bufCompare, Ordering.swap]
  | cons x xs ih =>
    intro b
    cases b with
    | nil => simp [bufCompare, Ordering.swap]
    | cons y ys =>
      by_cases hxy : x < y
      · have hyx : ¬ y < x := by omega
        simp [bufCompare, hxy, hyx, Ordering.swap]
      · by_cases hyx : y < x
        · simp [bufCompare, hxy, hyx, Ordering.swap]
        · simp [bufCompare, hxy, hyx, ih]

theorem bufLe_cons_iff {x y : Nat} {xs ys : Bytes} :
    bufLe (x :: xs) (y :: ys) ↔ x < y ∨ (x = y ∧ bufLe xs ys) := by
  by_cases hxy : x < y
  · simp [bufLe, bufCompare, hxy]
  · by_cases hyx : y < x
    · simp only [bufLe, bufCompare, if_neg hxy, if_pos hyx]
      constructor
      · intro h
        exact absurd rfl h
      · rintro (h | ⟨h, _⟩)
        · exact absurd h hxy
        · subst h
          exact absurd hyx (lt_irrefl x)
    · have hx : x = y := by omega
      subst hx
      simp [bufLe, bufCompare, hxy, hyx]

theorem bufLe_trans {a b c : Bytes} (hab : bufLe a b) (hbc : bufLe b c) : bufLe a c := by
  induction a generalizing b c with
  | nil => cases c <;> simp [bufLe, bufCompare]
  | cons x xs ih =>
    cases b with
    | nil => simp [bufLe, bufCompare] at hab
    | cons y ys =>
      cases c with
      | nil => simp [bufLe, bufCompare] at hbc
      | cons z zs =>
        rw [bufLe_cons_iff] at hab hbc ⊢
        rcases hab with h1 | ⟨h1, h1'⟩ <;> rcases hbc with h2 | ⟨h2, h2'⟩
        · exact Or.inl (by omega)
        · exact Or.inl (by omega)
        · exact Or.inl (by omega)
        · exact Or.inr ⟨by omega, ih h1' h2'⟩

theorem bufLe_total : ∀ (a b : Bytes), bufLe a b ∨ bufLe b a := by
  intro a b
  rcases h : bufCompare a b with _ | _ | _
  · exact Or.inl (by simp [bufLe, h])
  · exact Or.inl (by simp [bufLe, h])
  · right
    have hs := bufCompare_swap a b
    rw [h] at hs
    simp only [Ordering.swap] at hs
    simp [bufLe, ← hs]

theorem bufLe_antisymm : ∀ {a b : Bytes}, bufLe a b → bufLe b a → a = b := by
  intro a b hab hba
  rcases hcase : bufCompare a b with _ | _ | _
  · have hs := bufCompare_swap a b
    rw [hcase] at hs
    simp only [Ordering.swap] at hs
    exact absurd hs.symm hba
  · exact bufCompare_eq_iff.mp hcase
  · exact absurd hcase hab

instance : IsTrans Bytes bufLe := ⟨fun _ _ _ => bufLe_trans⟩
instance : IsTotal Bytes bufLe := ⟨bufLe_total⟩
instance : IsAntisymm Bytes bufLe := ⟨fun _ _ => bufLe_antisymm⟩

/-- `[...publicKeys].sort((a, b) => a.compare(b))`: sort the keys in
byte-lexicographic order. -/
def sortKeys (keys : List Bytes) : List Bytes := List.insertionSort bufLe keys

/-! ### Script compilation (`createRedeemScript`)

`createRedeemScript` calls `bitcoin.script.compile` on
`[number.encode(m), ...pubkeys, number.encode(n), OP_CHECKMULTISIG]`.
We embed the byte-level behaviour of `bitcoin.script.number.encode` (for the
non-negative arguments the wallet passes) and of `compile`'s treatment of
buffer chunks (minimal-opcode folding plus pushdata encoding). -/

/-- Little-endian base-256 digits of `n` (empty for `0`); fuel-structured so
it reduces definitionally. -/
def scriptNumBytesAux : Nat → Nat → Bytes
  | 0, _ => []
  | fuel + 1, n => if n = 0 then [] else n % 256 :: scriptNumBytesAux fuel (n / 256)

/-- `bitcoin.script.number.encode` for a non-negative integer: minimal
little-endian bytes, with a trailing `0x00` when the top byte has its sign
bit set. -/
def encodeScriptNum (n : Nat) : Bytes :=
  let b := scriptNumBytesAux n n
  match b.getLast? with
  | some last => if 128 ≤ last then b ++ [0] else b
  | none => b

/-- `OP_CHECKMULTISIG` opcode value. -/
def OP_CHECKMULTISIG : Nat := 174

/-- How `bitcoin.script.compile` emits one `Buffer` chunk: fold the buffer
to a minimal opcode when possible (`OP_0`, `OP_1`..`OP_16`, `OP_1NEGATE`),
otherwise prefix a pushdata header (length byte below `0x4c`, else
`OP_PUSHDATA1/2/4`). -/
def compileBuf : Bytes → Bytes
  | [] => [0]
  | [x] => if 1 ≤ x ∧ x ≤ 16 then [80 + x] else if x = 129 then [79] else [1, x]
  | b =>
    if b.length < 76 then b.length :: b
    else if b.length ≤ 255 then 76 :: b.length :: b
    else if b.length ≤ 65535 then 77 :: b.length % 256 :: b.length / 256 :: b
    else 78 :: b.length % 256 :: b.length / 256 % 256 :: b.length / 65536 % 256 ::
      b.length / 16777216 % 256 :: b

/-- `MultisigWallet.createRedeemScript`: compile
`[encode(m), ...sorted pubkeys, encode(n), OP_CHECKMULTISIG]` to bytes. -/
def createRedeemScript (m : Nat) (pubkeys : List Bytes) (n : Nat) : Bytes :=
  compileBuf (encodeScriptNum m) ++ (pubkeys.map compileBuf).flatten ++
    compileBuf (encodeScriptNum n) ++ [OP_CHECKMULTISIG]

/-! ### Wallet construction (`MultisigWallet.constructor`) -/

/-- Errors thrown by the `MultisigWallet` constructor, one per `throw`
site. -/
inductive WalletError where
  | notPositiveInteger
  | emptyKeySet
  | thresholdExceedsKeys
  | invalidKey (index : Nat)
  deriving DecidableEq, Repr

/-- The state of a `MultisigWallet` instance after construction. The two
derived addresses are pure functions of `redeemScript` and the (fixed
testnet) network parameters computed by the external `bitcoin.payments`
library, so they are not carried in the model. -/
structure Wallet where
  m : Nat
  n : Nat
  pubkeys : List Bytes
  redeemScript : Bytes
  usedSigners : List Bytes
  deriving DecidableEq, Repr

/-- The constructor's `publicKeys.forEach` validation loop: returns the
index of the first key rejected by the external `tinysecp.isPoint`. -/
def validateKeys (isPoint : Bytes → Bool) : List Bytes → Nat → Except WalletError Unit
  | [], _ => .ok ()
  | k :: rest, i =>
    if isPoint k then validateKeys isPoint rest (i + 1)
    else .error (.invalidKey i)

/-- `MultisigWallet.constructor`, parameterised by the external curve-point
check `tinysecp.isPoint`. Checks, in source order: `requiredSigs` positive,
key list non-empty, `requiredSigs ≤ publicKeys.length`, every key a valid
point; then stores the byte-lexicographically sorted keys, an empty
used-signer set, and the compiled redeem script. The external
address-encoding step is total on well-formed scripts (spec §4.2) and is
not modelled. -/
def mkWallet (isPoint : Bytes → Bool) (requiredSigs : Int) (publicKeys : List Bytes) :
    Except WalletError Wallet :=
  if requiredSigs ≤ 0 then .error .notPositiveInteger
  else if publicKeys.length = 0 then .error .emptyKeySet
  else if (publicKeys.length : Int) < requiredSigs then .error .thresholdExceedsKeys
  else
    match validateKeys isPoint publicKeys 0 with
    | .error e => .error e
    | .ok _ =>
      let m := requiredSigs.toNat
      let sorted := sortKeys publicKeys
      Except.ok
        { m := m
          n := publicKeys.length
          pubkeys := sorted
          redeemScript := createRedeemScript m sorted publicKeys.length
          usedSigners := [] }

/-! ### Transaction assembly (`createTransaction`) -/

/-- A spendable output as the source declares it (`interface UTXO`); the
`scriptPubKey` hex string is modelled by its decoded bytes. -/
structure UTXO where
  txid : Bytes
  vout : Nat
  value : Int
  scriptPubKey : Bytes
  deriving DecidableEq, Repr

/-- A desired output (`interface Output`); the address string is opaque to
the wallet and validated by the external `bitcoin-address-validation`
library. -/
structure Output where
  address : Bytes
  value : Int
  deriving DecidableEq, Repr

/-- One recorded partial signature on a PSBT input. -/
structure PartialSig where
  pubkey : Bytes
  signature : Bytes
  deriving DecidableEq, Repr

/-- A PSBT input as `createTransaction` populates it and as
`verifyTransaction` reads it (`input.partialSig` empty until signed). -/
structure PsbtInput where
  hash : Bytes
  index : Nat
  redeemScript : Bytes
  witnessScript : Bytes
  witnessUtxo : Option (Bytes × Int)
  nonWitnessUtxo : Option Bytes
  partialSig : List PartialSig
  deriving DecidableEq, Repr

/-- A PSBT output. -/
structure PsbtOutput where
  address : Bytes
  value : Int
  deriving DecidableEq, Repr

/-- The PSBT draft built by `createTransaction` and mutated by signing. -/
structure Psbt where
  inputs : List PsbtInput
  outputs : List PsbtOutput
  deriving DecidableEq, Repr

/-- Errors thrown by `createTransaction`, one per `throw` site. -/
inductive TxError where
  | emptyUtxos
  | emptyOutputs
  | negativeFee
  | insufficientFunds
  | invalidAddress (address : Bytes)
  | nonPositiveOutputValue
  deriving DecidableEq, Repr

/-- The input record built for one UTXO inside the `utxos.forEach` loop:
both `redeemScript` and `witnessScript` are set to the wallet's redeem
script, and the committed script's `0020` prefix decides witness form
(`witnessUtxo` carries the script and amount) versus legacy form
(`nonWitnessUtxo` carries the supplied prior-transaction bytes). -/
def mkInput (w : Wallet) (u : UTXO) : PsbtInput :=
  if u.scriptPubKey.take 2 = [0, 32] then
    { hash := u.txid
      index := u.vout
      redeemScript := w.redeemScript
      witnessScript := w.redeemScript
      witnessUtxo := some (u.scriptPubKey, u.value)
      nonWitnessUtxo := none
      partialSig := [] }
  else
    { hash := u.txid
      index := u.vout
      redeemScript := w.redeemScript
      witnessScript := w.redeemScript
      witnessUtxo := none
      nonWitnessUtxo := some u.scriptPubKey
      partialSig := [] }

/-- The `outputs.forEach` loop: validate each address with the external
validator, require a positive value, and append the output; the first
offending output throws. -/
def addOutputs (validateAddr : Bytes → Bool) : List Output → Except TxError (List PsbtOutput)
  | [] => .ok []
  | o :: rest =>
    if ¬ validateAddr o.address then .error (.invalidAddress o.address)
    else if o.value ≤ 0 then .error .nonPositiveOutputValue
    else
      match addOutputs validateAddr rest with
      | .error e => .error e
      | .ok tail => .ok ({ address := o.address, value := o.value } :: tail)

/-- `MultisigWallet.createTransaction`, parameterised by the external
address validator (the network argument is fixed to testnet in the
source). Checks, in source order: non-empty UTXO list, non-empty output
list, non-negative fee, total input value at least total output value plus
fee; then builds the inputs and the validated outputs. -/
def createTransaction (validateAddr : Bytes → Bool) (w : Wallet)
    (utxos : List UTXO) (outputs : List Output) (fee : Int) : Except TxError Psbt :=
  if utxos.length = 0 then .error .emptyUtxos
  else if outputs.length = 0 then .error .emptyOutputs
  else if fee < 0 then .error .negativeFee
  else
    let totalInput := (utxos.map (·.value)).sum
    let totalOutput := (outputs.map (·.value)).sum
    if totalInput < totalOutput + fee then .error .insufficientFunds
    else
      match addOutputs validateAddr outputs with
      | .error e => .error e
      | .ok outs => .ok { inputs := utxos.map (mkInput w), outputs := outs }

/-! ### Signing (`signTransaction`) -/

/-- The part of an `ECPairInterface` the wallet reads: its public key. -/
structure KeyPair where
  publicKey : Bytes
  deriving DecidableEq, Repr

/-- Errors thrown by `signTransaction` for the two policy violations. -/
inductive SigError where
  | unauthorizedSigner
  | duplicateSigner
  deriving DecidableEq, Repr

/-- `bitcoin.Transaction.SIGHASH_ALL`: the "sign everything" hash mode. -/
def SIGHASH_ALL : Nat := 1

/-- `MultisigWallet.signTransaction`, parameterised by the external
`psbt.signInput` (arguments: draft, input index, key pair, allowed sighash
types; result: post-state of the draft and whether signing succeeded —
`false` models the thrown exception the source catches). In source order:
throw if the signer is not in the wallet's key set; throw if the signer is
already in the wallet's used-signer set; otherwise sign with the sighash
list `[SIGHASH_ALL]`, and only on success add the signer to the used set
and return `true`; on signing failure return `false`. -/
def signTransaction (signImpl : Psbt → Nat → KeyPair → List Nat → Psbt × Bool)
    (w : Wallet) (psbt : Psbt) (keyPair : KeyPair) (inputIndex : Nat) :
    Wallet × Psbt × Except SigError Bool :=
  if keyPair.publicKey ∈ w.pubkeys then
    if keyPair.publicKey ∈ w.usedSigners then (w, psbt, .error .duplicateSigner)
    else
      match signImpl psbt inputIndex keyPair [SIGHASH_ALL] with
      | (psbt2, true) =>
        ({ w with usedSigners := keyPair.publicKey :: w.usedSigners }, psbt2, .ok true)
      | (psbt2, false) => (w, psbt2, .ok false)
  else (w, psbt, .error .unauthorizedSigner)

/-- `MultisigWallet.resetSigners`: clear the wallet-scoped used-signer
set. It takes no draft and touches nothing else. -/
def resetSigners (w : Wallet) : Wallet := { w with usedSigners := [] }

/-! ### Verification and finalization -/

/-- The inner loop of `verifyTransaction` over one input's `partialSig`
list with the `signers` seen-set accumulator: reject a pubkey already
seen, reject a pubkey outside the wallet's key set. -/
def sigsDistinctAuthorized (w : Wallet) : List PartialSig → List Bytes → Bool
  | [], _ => true
  | s :: rest, seen =>
    if s.pubkey ∈ seen then false
    else if s.pubkey ∈ w.pubkeys then sigsDistinctAuthorized w rest (s.pubkey :: seen)
    else false

/-- `verifyTransaction`'s per-input check: at least `m` recorded partial
signatures, from pairwise-distinct signers, all in the wallet's key
set. -/
def inputVerified (w : Wallet) (input : PsbtInput) : Bool :=
  if input.partialSig.length < w.m then false
  else sigsDistinctAuthorized w input.partialSig []

/-- `MultisigWallet.verifyTransaction`: every input passes the per-input
check. The source only reads `psbt.data.inputs` and local variables, so
the embedding is a plain function of the wallet and the draft. -/
def verifyTransaction (w : Wallet) (psbt : Psbt) : Bool :=
  psbt.inputs.all (inputVerified w)

/-- Errors thrown by `finalizeTransaction`. -/
inductive FinError where
  | verificationFailed
  | finalizationFailed
  deriving DecidableEq, Repr

/-- `MultisigWallet.finalizeTransaction`, parameterised by the external
finalize-and-extract step (`psbt.finalizeAllInputs()` followed by
`extractTransaction().toHex()`; result: post-state of the draft and the
wire hex, `none` modelling the exception the source wraps). The draft's
verification is checked first, before the external step runs. -/
def finalizeTransaction (finImpl : Psbt → Psbt × Option Bytes) (w : Wallet) (psbt : Psbt) :
    Psbt × Except FinError Bytes :=
  if verifyTransaction w psbt then
    match finImpl psbt with
    | (psbt2, some hex) => (psbt2, .ok hex)
    | (psbt2, none) => (psbt2, .error .finalizationFailed)
  else (psbt, .error .verificationFailed)

/-! ### Path validation (`BrokenMultisigWallet.validatePath`,
`src/advanced-musig.ts`)

JavaScript strings are modelled as `List Char`; `String.prototype.split`
with a one-character separator and `String.prototype.startsWith` are
embedded below. -/

/-- `split` accumulator loop: separators delimit segments, empty segments
included, as in JavaScript's `String.prototype.split("/")`. -/
def strSplitAux (sep : Char) : List Char → List Char → List (List Char)
  | [], acc => [acc.reverse]
  | c :: rest, acc =>
    if c = sep then acc.reverse :: strSplitAux sep rest []
    else strSplitAux sep rest (c :: acc)

/-- `s.split(sep)` for a single-character separator. -/
def strSplit (sep : Char) (s : List Char) : List (List Char) := strSplitAux sep s []

/-- `s.startsWith(p)`. -/
def strStartsWith (p s : List Char) : Bool := s.take p.length == p

/-- `BrokenMultisigWallet.validatePath`:
`path.startsWith("m/") && path.split("/").length === 5`. -/
def validatePath (path : List Char) : Bool :=
  strStartsWith ['m', '/'] path && ((strSplit '/' path).length == 5)

/-- The hardened marker `'` (apostrophe). -/
def hardMark : Char := Char.ofNat 39

/-- The path `m/48'/0'/0'/2'/0` (BIP48 multisig path with the conventional
non-hardened leaf). -/
def bip48SignerPath : List Char :=
  ['m', '/', '4', '8', hardMark, '/', '0', hardMark, '/', '0', hardMark, '/',
    '2', hardMark, '/', '0']

/-- The path `m/48/0/0/2/0` (no hardened markers at all). -/
def unhardenedSignerPath : List Char :=
  ['m', '/', '4', '8', '/', '0', '/', '0', '/', '2', '/', '0']

/-- The path `m/48/0/0/2` (five slash-separated components, no hardened
markers). -/
def unhardenedAccountPath : List Char :=
  ['m', '/', '4', '8', '/', '0', '/', '0', '/', '2']

/-! ### Concrete example objects used by witnesses -/

/-- A stand-in for the external `tinysecp.isPoint` that accepts every
buffer. -/
def truePoint : Bytes → Bool := fun _ => true

/-- A concrete 1-of-2 wallet state (keys `[2]` and `[3]`, no used
signers), matching `mkWallet truePoint 1 [[2], [3]]`. -/
def exWallet : Wallet :=
  { m := 1
    n := 2
    pubkeys := [[2], [3]]
    redeemScript := createRedeemScript 1 [[2], [3]] 2
    usedSigners := [] }

/-- `exWallet` after signer `[2]` has contributed. -/
def exWalletUsed : Wallet := { exWallet with usedSigners := [[2]] }

/-- An empty draft. -/
def exPsbt : Psbt := { inputs := [], outputs := [] }

/-- The key pair of signer `[2]`. -/
def exKeyPair : KeyPair := { publicKey := [2] }

/-- A draft with one input carrying one partial signature from signer
`[2]`. -/
def exSignedPsbt : Psbt :=
  { inputs := [{ hash := []
                 index := 0
                 redeemScript := []
                 witnessScript := []
                 witnessUtxo := none
                 nonWitnessUtxo := none
                 partialSig := [{ pubkey := [2], signature := [9] }] }]
    outputs := [] }

/-- A draft with one unsigned input. -/
def exUnsignedPsbt : Psbt :=
  { inputs := [{ hash := []
                 index := 0
                 redeemScript := []
                 witnessScript := []
                 witnessUtxo := none
                 nonWitnessUtxo := none
                 partialSig := [] }]
    outputs := [] }

/-- A stand-in external signer that always succeeds without touching the
draft. -/
def exSignOk : Psbt → Nat → KeyPair → List Nat → Psbt × Bool := fun p _ _ _ => (p, true)

/-- A stand-in external signer that always fails. -/
def exSignFail : Psbt → Nat → KeyPair → List Nat → Psbt × Bool := fun p _ _ _ => (p, false)

/-- A stand-in external finalize step that always fails. -/
def exFinFail : Psbt → Psbt × Option Bytes := fun p => (p, none)

/-- A stand-in address validator that accepts every address. -/
def trueAddr : Bytes → Bool := fun _ => true

/-- A witness-form UTXO: its committed script starts with the two-byte
P2WSH prefix `0020`. -/
def exUtxoWitness : UTXO := { txid := [1], vout := 0, value := 2, scriptPubKey := [0, 32] }

/-- A legacy-form UTXO: its committed script does not start with
`0020`. -/
def exUtxoLegacy : UTXO := { txid := [1], vout := 1, value := 2, scriptPubKey := [5, 6] }

/-- A concrete desired output. -/
def exOutput : Output := { address := [7], value := 1 }

/-- The draft `createTransaction` builds from `exUtxoWitness`,
`exUtxoLegacy` and `exOutput` with fee `0`. -/
def exDraft : Psbt :=
  { inputs := [mkInput exWallet exUtxoWitness, mkInput exWallet exUtxoLegacy]
    outputs := [{ address := [7], value := 1 }] }

end Musig

deriving instance DecidableEq for Except

namespace Musig

/-! ### Helper lemmas -/

theorem validateKeys_ok_iff (isPoint : Bytes → Bool) :
    ∀ (keys : List Bytes) (i : Nat),
      validateKeys isPoint keys i = Except.ok () ↔ ∀ k ∈ keys, isPoint k = true := by
  intro keys
  induction keys with
  | nil => intro i; simp [validateKeys]
  | cons k rest ih =>
    intro i
    by_cases h : isPoint k
    · simp [validateKeys, h, ih]
    · simp [validateKeys, h]

theorem sortKeys_eq_of_perm {l1 l2 : List Bytes} (h : l1.Perm l2) :
    sortKeys l1 = sortKeys l2 :=
  List.eq_of_perm_of_sorted
    ((List.perm_insertionSort _ l1).trans (h.trans (List.perm_insertionSort _ l2).symm))
    (List.sorted_insertionSort _ l1) (List.sorted_insertionSort _ l2)

/-! ### Claim theorems -/

/-- Claim C6: the spec fixes the hardened-path scheme — `validatePath`
must accept `m/48'/0'/0'/2'/0` and must reject every path with a
non-hardened segment below the account level, in particular
`m/48/0/0/2/0`. The source's `validatePath` only tests for the `m/`
prefix and exactly five slash-separated components: it rejects the
mandated-accept path `m/48'/0'/0'/2'/0` (six components), and it accepts
`m/48/0/0/2` although no segment is hardened. -/
theorem validatePath_ignores_hardening :
    validatePath bip48SignerPath = false ∧
      validatePath unhardenedSignerPath = false ∧
      validatePath unhardenedAccountPath = true := by
  decide

/-- Claim C4: on a draft that fails `verifyTransaction`,
`finalizeTransaction` raises the verification-failed error and returns
the draft unchanged, whatever the external finalize step would do — the
conclusion does not depend on `finImpl`, so the failure occurs before any
finalization step touches the draft. -/
theorem finalizeTransaction_unverified (finImpl : Psbt → Psbt × Option Bytes)
    (w : Wallet) (psbt : Psbt) (h : verifyTransaction w psbt = false) :
    finalizeTransaction finImpl w psbt = (psbt, Except.error FinError.verificationFailed) := by
  unfold finalizeTransaction
  rw [h]
  simp

/-- Witness for C4 at a concrete unverifiable draft (one unsigned input
against a 1-of-2 wallet). -/
theorem finalizeTransaction_unverified_witness :
    finalizeTransaction exFinFail exWallet exUnsignedPsbt =
      (exUnsignedPsbt, Except.error FinError.verificationFailed) :=
  finalizeTransaction_unverified exFinFail exWallet exUnsignedPsbt (by decide)

theorem sigsDistinctAuthorized_iff (w : Wallet) :
    ∀ (sigs : List PartialSig) (seen : List Bytes),
      sigsDistinctAuthorized w sigs seen = true ↔
        ((sigs.map (·.pubkey)).Nodup ∧ (∀ s ∈ sigs, s.pubkey ∉ seen) ∧
          ∀ s ∈ sigs, s.pubkey ∈ w.pubkeys) := by
  intro sigs
  induction sigs with
  | nil => intro seen; simp [sigsDistinctAuthorized]
  | cons s rest ih =>
    intro seen
    by_cases h1 : s.pubkey ∈ seen
    · simp [sigsDistinctAuthorized, h1]
    · by_cases h2 : s.pubkey ∈ w.pubkeys
      · have hstep : sigsDistinctAuthorized w (s :: rest) seen =
            sigsDistinctAuthorized w rest (s.pubkey :: seen) := by
          simp [sigsDistinctAuthorized, h1, h2]
        rw [hstep, ih (s.pubkey :: seen)]
        simp only [List.map_cons, List.nodup_cons, List.forall_mem_cons]
        constructor
        · rintro ⟨hnd, hseen, hauth⟩
          refine ⟨⟨?_, hnd⟩,
            ⟨h1, fun t ht hm => hseen t ht (List.mem_cons_of_mem _ hm)⟩, h2, hauth⟩
          intro hmem
          obtain ⟨t, ht, hteq⟩ := List.mem_map.mp hmem
          exact hseen t ht (by rw [hteq]; exact List.mem_cons_self _ _)
        · rintro ⟨⟨hnotmem, hnd⟩, ⟨_, hseen⟩, _, hauth⟩
          refine ⟨hnd, fun t ht hm => ?_, hauth⟩
          rcases List.mem_cons.mp hm with he | hm2
          · exact hnotmem (List.mem_map.mpr ⟨t, ht, he⟩)
          · exact hseen t ht hm2
      · simp [sigsDistinctAuthorized, h1, h2]

theorem inputVerified_iff (w : Wallet) (i : PsbtInput) :
    inputVerified w i = true ↔
      (w.m ≤ i.partialSig.length ∧ (i.partialSig.map (·.pubkey)).Nodup ∧
        ∀ s ∈ i.partialSig, s.pubkey ∈ w.pubkeys) := by
  unfold inputVerified
  by_cases h : i.partialSig.length < w.m
  · simp only [if_pos h]
    constructor
    · intro hfalse
      exact absurd hfalse (by simp)
    · rintro ⟨hle, _⟩
      omega
  · rw [if_neg h, sigsDistinctAuthorized_iff w i.partialSig []]
    simp only [List.not_mem_nil, not_false_iff, imp_true_iff, true_and]
    constructor
    · rintro ⟨hnd, hauth⟩
      exact ⟨by omega, hnd, hauth⟩
    · rintro ⟨_, hnd, hauth⟩
      exact ⟨hnd, hauth⟩

/-- Claim C3: `verifyTransaction` is a plain function of the wallet and
the draft (the source only reads `psbt.data.inputs`), and it returns
`true` exactly when every input carries at least `m` partial signatures,
from pairwise-distinct signers, all of whom belong to the wallet's key
set — so it returns `false` whenever some input has too few signatures, a
repeated signer, or a contributor outside the key set. -/
theorem verifyTransaction_iff (w : Wallet) (psbt : Psbt) :
    verifyTransaction w psbt = true ↔
      ∀ i ∈ psbt.inputs,
        w.m ≤ i.partialSig.length ∧ (i.partialSig.map (·.pubkey)).Nodup ∧
          ∀ s ∈ i.partialSig, s.pubkey ∈ w.pubkeys := by
  simp only [verifyTransaction, List.all_eq_true, inputVerified_iff]

/-- Witness for C3: a concrete 1-of-2 wallet and a draft whose single
input carries one authorized signature verifies. -/
theorem verifyTransaction_iff_witness : verifyTransaction exWallet exSignedPsbt = true :=
  (verifyTransaction_iff exWallet exSignedPsbt).mpr (by decide)

theorem signTransaction_eq_unauth {signImpl} {w : Wallet} {psbt : Psbt} {kp : KeyPair}
    {idx : Nat} (hmem : kp.publicKey ∉ w.pubkeys) :
    signTransaction signImpl w psbt kp idx = (w, psbt, .error .unauthorizedSigner) := by
  unfold signTransaction
  rw [if_neg hmem]

theorem signTransaction_eq_dup {signImpl} {w : Wallet} {psbt : Psbt} {kp : KeyPair}
    {idx : Nat} (hmem : kp.publicKey ∈ w.pubkeys) (hused : kp.publicKey ∈ w.usedSigners) :
    signTransaction signImpl w psbt kp idx = (w, psbt, .error .duplicateSigner) := by
  unfold signTransaction
  rw [if_pos hmem, if_pos hused]

theorem signTransaction_eq_signFail {signImpl} {w : Wallet} {psbt psbt2 : Psbt}
    {kp : KeyPair} {idx : Nat} (hmem : kp.publicKey ∈ w.pubkeys)
    (hused : kp.publicKey ∉ w.usedSigners)
    (hs : signImpl psbt idx kp [SIGHASH_ALL] = (psbt2, false)) :
    signTransaction signImpl w psbt kp idx = (w, psbt2, .ok false) := by
  unfold signTransaction
  rw [if_pos hmem, if_neg hused, hs]

theorem signTransaction_eq_signOk {signImpl} {w : Wallet} {psbt psbt2 : Psbt}
    {kp : KeyPair} {idx : Nat} (hmem : kp.publicKey ∈ w.pubkeys)
    (hused : kp.publicKey ∉ w.usedSigners)
    (hs : signImpl psbt idx kp [SIGHASH_ALL] = (psbt2, true)) :
    signTransaction signImpl w psbt kp idx =
      ({ w with usedSigners := kp.publicKey :: w.usedSigners }, psbt2, .ok true) := by
  unfold signTransaction
  rw [if_pos hmem, if_neg hused, hs]

/-- Claim C2: once a signer's call to `signTransaction` has succeeded, any
further call with the same signer key raises the duplicate error — for any
draft and any input index, since the used-signer set is wallet-scoped —
until `resetSigners` is run; `resetSigners` clears only the used-signer
set (threshold, key set and redeem script are untouched, and it takes no
draft, so recorded signatures are untouched), after which the duplicate
error is no longer raised for that signer. -/
theorem signTransaction_duplicate_until_reset
    (signImpl signImpl2 : Psbt → Nat → KeyPair → List Nat → Psbt × Bool)
    (w w1 : Wallet) (psbt psbt1 psbt2 : Psbt) (kp kp2 : KeyPair) (idx idx2 : Nat)
    (hpk : kp2.publicKey = kp.publicKey)
    (h1 : signTransaction signImpl w psbt kp idx = (w1, psbt1, Except.ok true)) :
    signTransaction signImpl2 w1 psbt2 kp2 idx2 =
        (w1, psbt2, Except.error SigError.duplicateSigner) ∧
      (resetSigners w1).usedSigners = [] ∧
      (resetSigners w1).m = w1.m ∧ (resetSigners w1).n = w1.n ∧
      (resetSigners w1).pubkeys = w1.pubkeys ∧
      (resetSigners w1).redeemScript = w1.redeemScript ∧
      ∀ (signImpl3 : Psbt → Nat → KeyPair → List Nat → Psbt × Bool) (psbt3 : Psbt)
        (idx3 : Nat),
        (signTransaction signImpl3 (resetSigners w1) psbt3 kp2 idx3).2.2 ≠
          Except.error SigError.duplicateSigner := by
  by_cases hmem : kp.publicKey ∈ w.pubkeys
  · by_cases hused : kp.publicKey ∈ w.usedSigners
    · rw [signTransaction_eq_dup hmem hused] at h1
      simp at h1
    · rcases hs : signImpl psbt idx kp [SIGHASH_ALL] with ⟨p2, b⟩
      cases b
      · rw [signTransaction_eq_signFail hmem hused hs] at h1
        simp at h1
      · rw [signTransaction_eq_signOk hmem hused hs] at h1
        simp only [Prod.mk.injEq] at h1
        obtain ⟨hw1, _, _⟩ := h1
        subst hw1
        refine ⟨?_, rfl, rfl, rfl, rfl, rfl, ?_⟩
        · exact signTransaction_eq_dup (by simpa [hpk] using hmem)
            (by simp [hpk])
        · intro signImpl3 psbt3 idx3
          by_cases hmem3 : kp2.publicKey ∈ (resetSigners
              { w with usedSigners := kp.publicKey :: w.usedSigners }).pubkeys
          · rcases hs3 : signImpl3 psbt3 idx3 kp2 [SIGHASH_ALL] with ⟨q, c⟩
            cases c
            · rw [signTransaction_eq_signFail hmem3 (by simp [resetSigners]) hs3]
              simp
            · rw [signTransaction_eq_signOk hmem3 (by simp [resetSigners]) hs3]
              simp
          · rw [signTransaction_eq_unauth hmem3]
            simp
  · rw [signTransaction_eq_unauth hmem] at h1
    simp at h1

/-- Witness for C2 at a concrete wallet: after signer `[2]` has signed
successfully, a second attempt raises the duplicate error and
`resetSigners` clears the used-signer set. -/
theorem signTransaction_duplicate_until_reset_witness :
    signTransaction exSignFail exWalletUsed exPsbt exKeyPair 1 =
        (exWalletUsed, exPsbt, Except.error SigError.duplicateSigner) ∧
      (resetSigners exWalletUsed).usedSigners = [] := by
  have h := signTransaction_duplicate_until_reset exSignOk exSignFail exWallet exWalletUsed
    exPsbt exPsbt exPsbt exKeyPair exKeyPair 0 1 rfl (by decide)
  exact ⟨h.1, h.2.1⟩

/-- Claim C7: `signTransaction` raises an error exactly for the two
policy violations (signer outside the key set; signer already in the
used-signer set); an underlying signing failure is reported as the
boolean `false` rather than raised; and a successful call signs the input
through the external signer invoked with the sighash list
`[SIGHASH_ALL]` (the "sign everything" mode) and returns `true`. -/
theorem signTransaction_error_asymmetry
    (signImpl : Psbt → Nat → KeyPair → List Nat → Psbt × Bool)
    (w : Wallet) (psbt : Psbt) (kp : KeyPair) (idx : Nat) :
    ((∃ e, (signTransaction signImpl w psbt kp idx).2.2 = Except.error e) ↔
      (kp.publicKey ∉ w.pubkeys ∨ kp.publicKey ∈ w.usedSigners)) ∧
    (kp.publicKey ∉ w.pubkeys →
      signTransaction signImpl w psbt kp idx =
        (w, psbt, Except.error SigError.unauthorizedSigner)) ∧
    (kp.publicKey ∈ w.pubkeys → kp.publicKey ∈ w.usedSigners →
      signTransaction signImpl w psbt kp idx =
        (w, psbt, Except.error SigError.duplicateSigner)) ∧
    (∀ psbt2, kp.publicKey ∈ w.pubkeys → kp.publicKey ∉ w.usedSigners →
      signImpl psbt idx kp [SIGHASH_ALL] = (psbt2, false) →
      signTransaction signImpl w psbt kp idx = (w, psbt2, Except.ok false)) ∧
    (∀ psbt2, kp.publicKey ∈ w.pubkeys → kp.publicKey ∉ w.usedSigners →
      signImpl psbt idx kp [SIGHASH_ALL] = (psbt2, true) →
      signTransaction signImpl w psbt kp idx =
        ({ w with usedSigners := kp.publicKey :: w.usedSigners }, psbt2, Except.ok true)) := by
  refine ⟨?_, fun h => signTransaction_eq_unauth h,
    fun h1 h2 => signTransaction_eq_dup h1 h2,
    fun p2 h1 h2 hs => signTransaction_eq_signFail h1 h2 hs,
    fun p2 h1 h2 hs => signTransaction_eq_signOk h1 h2 hs⟩
  constructor
  · intro ⟨e, he⟩
    by_cases hmem : kp.publicKey ∈ w.pubkeys
    · by_cases hused : kp.publicKey ∈ w.usedSigners
      · exact Or.inr hused
      · rcases hs : signImpl psbt idx kp [SIGHASH_ALL] with ⟨p2, b⟩
        cases b
        · rw [signTransaction_eq_signFail hmem hused hs] at he
          simp at he
        · rw [signTransaction_eq_signOk hmem hused hs] at he
          simp at he
    · exact Or.inl hmem
  · rintro (hmem | hused)
    · exact ⟨SigError.unauthorizedSigner, by rw [signTransaction_eq_unauth hmem]⟩
    · by_cases hmem : kp.publicKey ∈ w.pubkeys
      · exact ⟨SigError.duplicateSigner, by rw [signTransaction_eq_dup hmem hused]⟩
      · exact ⟨SigError.unauthorizedSigner, by rw [signTransaction_eq_unauth hmem]⟩

/-- Witness for C7: a key outside the concrete wallet's key set raises
the unauthorized error with wallet and draft unchanged. -/
theorem signTransaction_error_asymmetry_witness :
    signTransaction exSignOk exWallet exPsbt { publicKey := [9] } 0 =
      (exWallet, exPsbt, Except.error SigError.unauthorizedSigner) :=
  (signTransaction_error_asymmetry exSignOk exWallet exPsbt { publicKey := [9] } 0).2.1
    (by decide)

/-- Claim C10: the signer is added to the wallet's used-signer set only
when the underlying signing succeeded: a raised policy error leaves
wallet and draft exactly as they were, a `false` return leaves the wallet
(and, when the external signer did not mutate the draft while failing,
the draft) unchanged, and the used-signer set grows exactly on the
successful return, so a failed attempt does not consume the signer's
contribution. -/
theorem signTransaction_no_consume_on_failure
    (signImpl : Psbt → Nat → KeyPair → List Nat → Psbt × Bool)
    (w : Wallet) (psbt : Psbt) (kp : KeyPair) (idx : Nat) :
    (∀ e, (signTransaction signImpl w psbt kp idx).2.2 = Except.error e →
      signTransaction signImpl w psbt kp idx = (w, psbt, Except.error e)) ∧
    ((signTransaction signImpl w psbt kp idx).2.2 = Except.ok false →
      (signTransaction signImpl w psbt kp idx).1 = w ∧
        ((signImpl psbt idx kp [SIGHASH_ALL]).1 = psbt →
          (signTransaction signImpl w psbt kp idx).2.1 = psbt)) ∧
    (∀ w2 p2, signTransaction signImpl w psbt kp idx = (w2, p2, Except.ok true) →
      w2.usedSigners = kp.publicKey :: w.usedSigners) ∧
    ((signTransaction signImpl w psbt kp idx).2.2 ≠ Except.ok true →
      (signTransaction signImpl w psbt kp idx).1.usedSigners = w.usedSigners) := by
  by_cases hmem : kp.publicKey ∈ w.pubkeys
  · by_cases hused : kp.publicKey ∈ w.usedSigners
    · rw [signTransaction_eq_dup hmem hused]
      refine ⟨?_, by simp, ?_, by simp⟩
      · intro e he
        simp only at he
        rw [← he]
      · intro w2 p2 h
        simp at h
    · rcases hs : signImpl psbt idx kp [SIGHASH_ALL] with ⟨p2, b⟩
      cases b
      · rw [signTransaction_eq_signFail hmem hused hs]
        refine ⟨?_, ?_, ?_, by simp⟩
        · intro e he
          simp at he
        · intro _
          refine ⟨rfl, fun hp => ?_⟩
          simpa [hs] using hp
        · intro w2 q h
          simp at h
      · rw [signTransaction_eq_signOk hmem hused hs]
        refine ⟨?_, by simp, ?_, ?_⟩
        · intro e he
          simp at he
        · intro w2 q h
          simp only [Prod.mk.injEq] at h
          rw [← h.1]
        · intro hne
          simp at hne
  · rw [signTransaction_eq_unauth hmem]
    refine ⟨?_, by simp, ?_, by simp⟩
    · intro e he
      simp only at he
      rw [← he]
    · intro w2 p2 h
      simp at h

/-- Witness for C10: the always-failing external signer returns `false`
and leaves the concrete wallet's used-signer set unchanged. -/
theorem signTransaction_no_consume_on_failure_witness :
    (signTransaction exSignFail exWallet exPsbt exKeyPair 0).1 = exWallet ∧
      (signTransaction exSignFail exWallet exPsbt exKeyPair 0).2.1 = exPsbt := by
  have h := (signTransaction_no_consume_on_failure exSignFail exWallet exPsbt
    exKeyPair 0).2.1 (by decide)
  exact ⟨h.1, h.2 (by decide)⟩

/-- Counterexample to claim C5 as stated: the constructor does not reject
duplicate keys — with a permissive point check, threshold 1 and the key
`[2]` listed twice, construction succeeds although the key list has
duplicates, whereas the claim requires a configuration error exactly
then. -/
theorem mkWallet_accepts_duplicates :
    (∃ w, mkWallet truePoint 1 [[2], [2]] = Except.ok w) ∧
      ¬ ([[2], [2]] : List Bytes).Nodup :=
  ⟨⟨_, rfl⟩, by decide⟩

/-- Claim C5 (amended): wallet construction succeeds exactly when the
threshold is positive, the key list is non-empty, the threshold does not
exceed the number of keys, and every key passes the external curve-point
check; duplicate keys are not rejected (the body quantifies over all key
lists, duplicates included). -/
theorem mkWallet_ok_iff (isPoint : Bytes → Bool) (m : Int) (keys : List Bytes) :
    (∃ w, mkWallet isPoint m keys = Except.ok w) ↔
      (0 < m ∧ keys ≠ [] ∧ m ≤ (keys.length : Int) ∧ ∀ k ∈ keys, isPoint k = true) := by
  unfold mkWallet
  by_cases h1 : m ≤ 0
  · have h1' : ¬ 0 < m := by omega
    simp [h1, h1']
  · by_cases h2 : keys.length = 0
    · have h2' : keys = [] := List.length_eq_zero.mp h2
      simp [h1, h2, h2']
    · by_cases h3 : (keys.length : Int) < m
      · have h3' : ¬ m ≤ (keys.length : Int) := by omega
        simp [h1, h2, h3, h3']
      · cases hv : validateKeys isPoint keys 0 with
        | error e =>
          have hnall : ¬ ∀ k ∈ keys, isPoint k = true := by
            intro hall
            rw [(validateKeys_ok_iff isPoint keys 0).mpr hall] at hv
            cases hv
          simp [h1, h2, h3, hv, hnall]
        | ok u =>
          cases u
          have hall : ∀ k ∈ keys, isPoint k = true :=
            (validateKeys_ok_iff isPoint keys 0).mp hv
          have hne : keys ≠ [] := fun hk => h2 (by rw [hk]; rfl)
          simp [h1, h2, h3, hv, hall, hne]
          exact ⟨by omega, by omega, hall⟩

/-- Witness for C5 (amended): a concrete valid configuration
constructs. -/
theorem mkWallet_ok_iff_witness : ∃ w, mkWallet truePoint 1 [[5]] = Except.ok w :=
  (mkWallet_ok_iff truePoint 1 [[5]]).mpr (by decide)

/-- Claim C1: for a valid threshold and distinct valid keys, wallet
construction is invariant under permutation of the input key list — both
orders construct successfully and yield the very same wallet state, in
particular byte-identical redeem scripts (and hence identical derived
addresses, which are pure functions of the redeem script), because the
constructor sorts the keys byte-lexicographically before
`createRedeemScript` emits push-m, each key in sorted order, push-n,
`OP_CHECKMULTISIG`. -/
theorem mkWallet_perm_invariant (isPoint : Bytes → Bool) (m : Int) (l1 l2 : List Bytes)
    (hperm : l1.Perm l2) (_hnodup : l1.Nodup) (hm : 0 < m) (hmn : m ≤ (l1.length : Int))
    (hpts : ∀ k ∈ l1, isPoint k = true) :
    mkWallet isPoint m l1 = mkWallet isPoint m l2 ∧
      ∃ w, mkWallet isPoint m l1 = Except.ok w := by
  have hlen : l1.length = l2.length := hperm.length_eq
  have h1 : ¬ m ≤ 0 := by omega
  have h2 : ¬ l1.length = 0 := by omega
  have h2b : ¬ l2.length = 0 := by omega
  have h3 : ¬ ((l1.length : Int) < m) := by omega
  have h3b : ¬ ((l2.length : Int) < m) := by rw [← hlen]; exact h3
  have hv1 : validateKeys isPoint l1 0 = Except.ok () :=
    (validateKeys_ok_iff isPoint l1 0).mpr hpts
  have hpts2 : ∀ k ∈ l2, isPoint k = true := fun k hk => hpts k (hperm.mem_iff.mpr hk)
  have hv2 : validateKeys isPoint l2 0 = Except.ok () :=
    (validateKeys_ok_iff isPoint l2 0).mpr hpts2
  have hsort : sortKeys l1 = sortKeys l2 := sortKeys_eq_of_perm hperm
  constructor
  · unfold mkWallet
    rw [if_neg h1, if_neg h1, if_neg h2, if_neg h2b, if_neg h3, if_neg h3b, hv1, hv2]
    simp [hsort, hlen]
  · unfold mkWallet
    rw [if_neg h1, if_neg h2, if_neg h3, hv1]
    exact ⟨_, rfl⟩

/-- Witness for C1: the two orders of the concrete key pair `[2]`, `[3]`
construct the same wallet. -/
theorem mkWallet_perm_invariant_witness :
    mkWallet truePoint 1 [[2], [3]] = mkWallet truePoint 1 [[3], [2]] ∧
      ∃ w, mkWallet truePoint 1 [[2], [3]] = Except.ok w :=
  mkWallet_perm_invariant truePoint 1 [[2], [3]] [[3], [2]] (by decide) (by decide)
    (by decide) (by decide) (by decide)

theorem addOutputs_ok_iff (v : Bytes → Bool) :
    ∀ os : List Output,
      (∃ l, addOutputs v os = Except.ok l) ↔ ∀ o ∈ os, v o.address = true ∧ 0 < o.value := by
  intro os
  induction os with
  | nil => simp [addOutputs]
  | cons o rest ih =>
    by_cases h1 : v o.address = true
    · by_cases h2 : o.value ≤ 0
      · have h2' : ¬ 0 < o.value := by omega
        simp [addOutputs, h1, h2, h2']
      · cases hr : addOutputs v rest with
        | error e =>
          have hrest : ¬ ∀ o' ∈ rest, v o'.address = true ∧ 0 < o'.value := by
            intro hall
            obtain ⟨l, hl⟩ := ih.mpr hall
            rw [hr] at hl
            cases hl
          simp [addOutputs, h1, h2, hr, hrest]
        | ok tail =>
          have hrest : ∀ o' ∈ rest, v o'.address = true ∧ 0 < o'.value := ih.mp ⟨tail, hr⟩
          have h2' : 0 < o.value := by omega
          simp [addOutputs, h1, h2, hr, h2']
          exact hrest
    · simp [addOutputs, h1]

theorem createTransaction_ok_iff (v : Bytes → Bool) (w : Wallet) (utxos : List UTXO)
    (outputs : List Output) (fee : Int) :
    (∃ p, createTransaction v w utxos outputs fee = Except.ok p) ↔
      (utxos ≠ [] ∧ outputs ≠ [] ∧ 0 ≤ fee ∧
        (outputs.map (·.value)).sum + fee ≤ (utxos.map (·.value)).sum ∧
        ∀ o ∈ outputs, v o.address = true ∧ 0 < o.value) := by
  unfold createTransaction
  by_cases h1 : utxos.length = 0
  · have h1' : utxos = [] := List.length_eq_zero.mp h1
    simp [h1, h1']
  · have hne : utxos ≠ [] := fun h => h1 (by rw [h]; rfl)
    by_cases h2 : outputs.length = 0
    · have h2' : outputs = [] := List.length_eq_zero.mp h2
      simp [h1, h2, h2']
    · have hne2 : outputs ≠ [] := fun h => h2 (by rw [h]; rfl)
      by_cases h3 : fee < 0
      · have h3' : ¬ 0 ≤ fee := by omega
        simp [h1, h2, h3, h3', hne, hne2]
      · by_cases h4 : (utxos.map (·.value)).sum < (outputs.map (·.value)).sum + fee
        · have h4' : ¬ ((outputs.map (·.value)).sum + fee ≤ (utxos.map (·.value)).sum) := by
            omega
          simp [h1, h2, h3, h4, h4', hne, hne2]
        · cases ha : addOutputs v outputs with
          | error e =>
            have hnall : ¬ ∀ o ∈ outputs, v o.address = true ∧ 0 < o.value := by
              intro hall
              obtain ⟨l, hl⟩ := (addOutputs_ok_iff v outputs).mpr hall
              rw [ha] at hl
              cases hl
            simp [h1, h2, h3, h4, ha, hnall]
          | ok outs =>
            have hall : ∀ o ∈ outputs, v o.address = true ∧ 0 < o.value :=
              (addOutputs_ok_iff v outputs).mp ⟨outs, ha⟩
            have h3' : 0 ≤ fee := by omega
            have h4' : (outputs.map (·.value)).sum + fee ≤ (utxos.map (·.value)).sum := by
              omega
            simp [h1, h2, h3, h4, ha, hne, hne2, h3', h4']
            exact hall

theorem createTransaction_ok_inputs (v : Bytes → Bool) (w : Wallet) (utxos : List UTXO)
    (outputs : List Output) (fee : Int) (p : Psbt)
    (hp : createTransaction v w utxos outputs fee = Except.ok p) :
    p.inputs = utxos.map (mkInput w) := by
  unfold createTransaction at hp
  by_cases h1 : utxos.length = 0
  · simp [h1] at hp
  by_cases h2 : outputs.length = 0
  · simp [h1, h2] at hp
  by_cases h3 : fee < 0
  · simp [h1, h2, h3] at hp
  by_cases h4 : (utxos.map (·.value)).sum < (outputs.map (·.value)).sum + fee
  · simp [h1, h2, h3, h4] at hp
  cases ha : addOutputs v outputs with
  | error e => simp [h1, h2, h3, h4, ha] at hp
  | ok outs =>
    simp [h1, h2, h3, h4, ha] at hp
    rw [← hp]

/-- Claim C8: `createTransaction` fails exactly when the UTXO list is
empty, the output list is empty, the fee is negative, the input total is
strictly below the output total plus the fee, some output address fails
the external validator, or some output value is non-positive; when none
of these hold, it returns a draft in which every input's
partial-signature list is empty. -/
theorem createTransaction_fails_iff (v : Bytes → Bool) (w : Wallet) (utxos : List UTXO)
    (outputs : List Output) (fee : Int) :
    ((∃ e, createTransaction v w utxos outputs fee = Except.error e) ↔
      (utxos = [] ∨ outputs = [] ∨ fee < 0 ∨
        (utxos.map (·.value)).sum < (outputs.map (·.value)).sum + fee ∨
        (∃ o ∈ outputs, ¬ v o.address = true) ∨ ∃ o ∈ outputs, o.value ≤ 0)) ∧
    ∀ p, createTransaction v w utxos outputs fee = Except.ok p →
      ∀ i ∈ p.inputs, i.partialSig = [] := by
  constructor
  · constructor
    · intro ⟨e, he⟩
      by_contra hcon
      push_neg at hcon
      obtain ⟨hu, ho, hf, hs, hv, hval⟩ := hcon
      obtain ⟨p, hp⟩ := (createTransaction_ok_iff v w utxos outputs fee).mpr
        ⟨hu, ho, by omega, by omega, fun o hom => ⟨hv o hom, by have := hval o hom; omega⟩⟩
      rw [hp] at he
      cases he
    · intro hcond
      cases hres : createTransaction v w utxos outputs fee with
      | error e => exact ⟨e, rfl⟩
      | ok p =>
        exfalso
        obtain ⟨hu, ho, hf, hs, hall⟩ :=
          (createTransaction_ok_iff v w utxos outputs fee).mp ⟨p, hres⟩
        rcases hcond with h | h | h | h | h | h
        · exact hu h
        · exact ho h
        · omega
        · omega
        · obtain ⟨o, hom, hov⟩ := h
          exact hov (hall o hom).1
        · obtain ⟨o, hom, hov⟩ := h
          have := (hall o hom).2
          omega
  · intro p hp i hi
    rw [createTransaction_ok_inputs v w utxos outputs fee p hp] at hi
    obtain ⟨u, _, hu⟩ := List.mem_map.mp hi
    rw [← hu]
    unfold mkInput
    by_cases hpre : u.scriptPubKey.take 2 = [0, 32]
    · rw [if_pos hpre]
    · rw [if_neg hpre]

/-- Witness for C8 at a concrete failing input: an empty UTXO list makes
`createTransaction` fail. -/
theorem createTransaction_fails_iff_witness :
    ∃ e, createTransaction trueAddr exWallet [] [exOutput] 0 = Except.error e :=
  (createTransaction_fails_iff trueAddr exWallet [] [exOutput] 0).1.mpr (Or.inl rfl)

/-- Claim C9: every UTXO passed to `createTransaction` becomes an input
tagged with the wallet's redeem script (as both `redeemScript` and
`witnessScript`), and the input form follows the committed script's
format tag: a script with the two-byte P2WSH prefix `0020` is carried
directly as witness data together with its amount, any other script is
referenced as the input's non-witness data; the map runs over the whole
UTXO list, so one draft may mix both forms. -/
theorem createTransaction_input_forms (v : Bytes → Bool) (w : Wallet) (utxos : List UTXO)
    (outputs : List Output) (fee : Int) (p : Psbt)
    (hp : createTransaction v w utxos outputs fee = Except.ok p) :
    p.inputs = utxos.map (mkInput w) ∧
      ∀ u ∈ utxos,
        (mkInput w u).redeemScript = w.redeemScript ∧
        (mkInput w u).witnessScript = w.redeemScript ∧
        (u.scriptPubKey.take 2 = [0, 32] →
          (mkInput w u).witnessUtxo = some (u.scriptPubKey, u.value) ∧
          (mkInput w u).nonWitnessUtxo = none) ∧
        (u.scriptPubKey.take 2 ≠ [0, 32] →
          (mkInput w u).nonWitnessUtxo = some u.scriptPubKey ∧
          (mkInput w u).witnessUtxo = none) := by
  refine ⟨createTransaction_ok_inputs v w utxos outputs fee p hp, ?_⟩
  intro u _
  by_cases hpre : u.scriptPubKey.take 2 = [0, 32]
  · simp [mkInput, hpre]
  · simp [mkInput, hpre]

/-- Witness for C9 at a concrete mixed draft: one witness-form UTXO and
one legacy-form UTXO in the same draft, with their respective input
forms. -/
theorem createTransaction_input_forms_witness :
    exDraft.inputs = [exUtxoWitness, exUtxoLegacy].map (mkInput exWallet) ∧
      (mkInput exWallet exUtxoWitness).witnessUtxo = some ([0, 32], 2) ∧
      (mkInput exWallet exUtxoLegacy).nonWitnessUtxo = some [5, 6] := by
  have h := createTransaction_input_forms trueAddr exWallet [exUtxoWitness, exUtxoLegacy]
    [exOutput] 0 exDraft (by decide)
  refine ⟨h.1, ?_, ?_⟩
  · exact ((h.2 exUtxoWitness (by decide)).2.2.1 (by decide)).1
  · exact ((h.2 exUtxoLegacy (by decide)).2.2.2 (by decide)).1

end Musig
